import Mathlib

/-!
# IcpSearch: a verification development for `main.go`

A shallow embedding of the batch ICP-registration lookup tool.  Go strings are
lists of characters (valid UTF-8 text), Go maps are association lists with
replace-or-append update, the process-wide credential variables are fields of
an explicit world record, and everything the program observes from outside
(the clock, the HTTP replies, the file system) is an input of the model.
-/

namespace IcpSearch

/-- Go `string`, as the sequence of its runes. -/
abbrev Str := List Char

/-! ## Errors -/

/-- The `error` values that `main.go` creates or passes on. -/
inductive Err where
  /-- a nil error value (the initial `lastErr`) -/
  | nilError
  /-- an error handed back by a library call (`net/http`, `encoding/json`, `os`, `bufio`) -/
  | lib (msg : Str)
  /-- `fmt.Errorf("返回HTML页面，需要更换Ip: %s", preview)` -/
  | htmlPage (preview : List UInt8)
  /-- `fmt.Errorf("JSON解析失败: %v, 响应内容: %s", err, string(body))` -/
  | jsonParse (err : Str) (body : List UInt8)
  /-- `fmt.Errorf("auth failed: %s", auth.Msg)` -/
  | authFailed (msg : Str)
  /-- `fmt.Errorf(qr.Msg)` -/
  | queryRejected (msg : Str)
  /-- `fmt.Errorf("多次尝试后仍然失败")` -/
  | tokenRetries
  /-- `fmt.Errorf("重试5次后仍然失败: %v", lastErr)` -/
  | retriesExhausted (lastErr : Err)
  deriving DecidableEq, Repr

deriving instance DecidableEq for Except

/-! ## Target parser (`splitBrackets`, `parseTargets`) -/

/-- Go `unicode.IsSpace`: the Latin-1 spaces and the Unicode `White_Space` code points. -/
def isSpace (c : Char) : Bool :=
  let n := c.toNat
  (9 ≤ n && n ≤ 13) || n == 32 || n == 0x85 || n == 0xA0 || n == 0x1680 ||
  (0x2000 ≤ n && n ≤ 0x200A) || n == 0x2028 || n == 0x2029 || n == 0x202F ||
  n == 0x205F || n == 0x3000

/-- Go `strings.TrimSpace`: drop the leading and the trailing white space. -/
def TrimSpace (s : Str) : Str := (s.dropWhile isSpace).rdropWhile isSpace

/-- Backtracking matcher for the tail `(.*?)\)$` of the pattern of `splitBrackets`,
started right after the opening parenthesis; it returns the text of group 2.
The lazy star first tries to stop (the next rune is `)` and the text ends
there) and otherwise consumes one rune other than a newline. -/
def matchAlias : Str → Option Str
  | [] => none
  | c :: rest =>
    if c = ')' ∧ rest = [] then some []
    else if c = '\n' then none
    else (matchAlias rest).map (fun q => c :: q)

/-- Backtracking matcher for the whole pattern `^(.*?)\((.*?)\)$`
(`re.FindStringSubmatch`): groups 1 and 2 of the leftmost-first match, if any.
The lazy star of group 1 first tries to stop (the next rune is `(` and the tail
matches) and otherwise consumes one rune other than a newline. -/
def matchBrackets : Str → Option (Str × Str)
  | [] => none
  | c :: rest =>
    match (if c = '(' then matchAlias rest else none) with
    | some q => some ([], q)
    | none =>
      if c = '\n' then none
      else (matchBrackets rest).map (fun m => (c :: m.1, m.2))

/-- Go `splitBrackets`: a line of the form `name(alias)` gives the two trimmed
groups, any other line is returned as it is. -/
def splitBrackets (s : Str) : List Str :=
  match matchBrackets s with
  | some m => [TrimSpace m.1, TrimSpace m.2]
  | none => [s]

/-- What the file system answers for `targetArg` in `parseTargets`. -/
inductive TargetFile where
  /-- `os.Stat(targetArg)` fails: the argument is itself the target -/
  | notFound
  /-- `os.Stat` succeeds and `os.Open` fails -/
  | openError (e : Str)
  /-- the lines handed out by the scanner, and `scanner.Err()` -/
  | file (lines : List Str) (scanErr : Option Str)

/-- One turn of the scanner loop of `parseTargets`. -/
def scanStep (targets : List Str) (text : Str) : List Str :=
  let line := TrimSpace text
  if line = [] then targets else targets ++ splitBrackets line

/-- The scanner loop of `parseTargets` over the lines of the file. -/
def scanTargets (lines : List Str) : List Str := lines.foldl scanStep []

/-- The first half of `parseTargets`: the targets before deduplication. -/
def rawTargets (targetArg : Str) : TargetFile → Except Err (List Str)
  | .notFound => .ok ([] ++ splitBrackets targetArg)
  | .openError e => .error (.lib e)
  | .file _ (some e) => .error (.lib e)
  | .file lines none => .ok (scanTargets lines)

/-- One turn of the deduplication loop of `parseTargets`; the state is the key
list of the map `uniq` and the slice `result`. -/
def uniqStep (acc : List Str × List Str) (t : Str) : List Str × List Str :=
  let t := TrimSpace t
  if t = [] then acc
  else if t ∈ acc.1 then acc
  else (t :: acc.1, acc.2 ++ [t])

/-- The deduplication loop of `parseTargets`. -/
def uniqTargets (targets : List Str) : List Str := (targets.foldl uniqStep ([], [])).2

/-- Go `parseTargets`. -/
def parseTargets (targetArg : Str) (fs : TargetFile) : Except Err (List Str) :=
  match rawTargets targetArg fs with
  | .error e => .error e
  | .ok targets => .ok (uniqTargets targets)

/-- The result of `parseTargets` on a readable file with the given lines. -/
def parseLines (lines : List Str) : List Str := uniqTargets (scanTargets lines)

/-! ## Outside world: clock, HTTP replies, credential cache -/

/-- Go `int64` arithmetic wraps around. -/
def wrap64 (x : Int) : Int := (x + 2 ^ 63) % 2 ^ 64 - 2 ^ 63

/-- A `time.Time` value, through the two observers `main.go` uses. -/
structure Time where
  Unix : Int
  UnixNano : Int

/-- Go `AuthResp` (with `Params.Token`, `Params.Sign` flattened). -/
structure AuthResp where
  Code : Int
  Msg : Str
  Token : Str
  Sign : Str
  deriving DecidableEq

/-- The body of a reply of the authentication endpoint, with what the two JSON
readers make of it. -/
structure AuthBody where
  /-- the bytes returned by `ioutil.ReadAll` -/
  raw : List UInt8
  /-- the outcome of `json.Unmarshal(body, &auth)` -/
  unmarshal : Except Str AuthResp
  /-- the value of `gjson.Get(string(body), "params.expire").Int()` -/
  expire : Int

/-- One element of `QueryResponse.Params.List`. -/
structure Item where
  Domain : Str
  ServiceName : Str
  UnitName : Str
  deriving DecidableEq

/-- Go `QueryResponse` (with `Params.List` flattened). -/
structure QueryResponse where
  Code : Int
  Msg : Str
  List : List Item
  deriving DecidableEq

/-- The body of a reply of the query endpoint: the outcome of
`json.Unmarshal(body, &qr)`. -/
structure QueryBody where
  unmarshal : Except Str QueryResponse

/-- The outcome of `httpClient.Do(req)`. -/
inductive HttpReply (β : Type) where
  | fail (err : Str)
  | body (b : β)

/-- What the program does to the outside, in order. -/
inductive Event where
  /-- the POST to `/api/auth`, with its `timeStamp` field -/
  | authRequest (timeStamp : Int)
  /-- the POST to `/queryByCondition/`, with `unitName`, `serviceType` and the two headers -/
  | queryRequest (unitName serviceType token sign : Str)
  /-- `cachedToken = ""; cachedSign = ""` in `queryIcp` -/
  | credCleared
  /-- `time.Sleep(n * time.Second)` -/
  | sleep (seconds : Nat)
  deriving DecidableEq

/-- The process-wide variables of `main.go` together with the outside world:
the clock and the two endpoints are streams read through a counter, and the
trace records the requests, credential clears and sleeps. -/
structure World where
  cachedToken : Str
  cachedSign : Str
  tokenExpireAt : Int
  /-- the value of the n-th call of `time.Now()` -/
  clock : Nat → Time
  ticks : Nat
  /-- the reply to the n-th authentication request -/
  authReplies : Nat → HttpReply AuthBody
  authCalls : Nat
  /-- the reply to the n-th query request -/
  queryReplies : Nat → HttpReply QueryBody
  queryCalls : Nat
  trace : List Event

/-- Go `time.Now()`. -/
def timeNow (w : World) : Time × World :=
  (w.clock w.ticks, { w with ticks := w.ticks + 1 })

/-- Go `time.Sleep(n * time.Second)` on the world. -/
def World.sleep (n : Nat) (w : World) : World :=
  { w with trace := w.trace ++ [.sleep n] }

/-! ## Token manager (`getTokenAndSignIfNeeded`) -/

/-- The first 100 bytes followed by `...` when the body is longer than that. -/
def htmlPreview (body : List UInt8) : List UInt8 :=
  if body.length > 100 then body.take 100 ++ [46, 46, 46] else body

/-- Go `getTokenAndSignIfNeeded`.  (`http.NewRequest` cannot fail on the
constant method and URL, so that branch is left out.) -/
def getTokenAndSignIfNeeded (w : World) : Except Err (Str × Str) × World :=
  let (t0, w) := timeNow w
  let now := t0.Unix
  if w.cachedToken ≠ [] ∧ w.tokenExpireAt > wrap64 (now + 10) then
    (.ok (w.cachedToken, w.cachedSign), w)
  else
    let (t1, w) := timeNow w
    let timeStamp := Int.tdiv t1.UnixNano 1000000
    let reply := w.authReplies w.authCalls
    let w := { w with authCalls := w.authCalls + 1, trace := w.trace ++ [.authRequest timeStamp] }
    match reply with
    | .fail e => (.error (.lib e), w)
    | .body b =>
      if b.raw.length > 0 ∧ b.raw.head? = some 60 then
        (.error (.htmlPage (htmlPreview b.raw)), w)
      else
        match b.unmarshal with
        | .error e => (.error (.jsonParse e b.raw), w)
        | .ok auth =>
          if auth.Code ≠ 200 then (.error (.authFailed auth.Msg), w)
          else
            let expire := if b.expire = 0 then 60 else b.expire
            let (t2, w) := timeNow w
            let w := { w with tokenExpireAt := wrap64 (t2.Unix + Int.tdiv expire 1000) }
            let w := { w with cachedToken := auth.Token }
            let w := { w with cachedSign := auth.Sign }
            (.ok (w.cachedToken, w.cachedSign), w)

/-! ## Query engine (`queryIcp`) -/

/-- Go `strings.Contains`. -/
def stringsContains (s substr : Str) : Bool := s.tails.any (fun t => substr.isPrefixOf t)

/-- The test of `queryIcp` for a reply that reports an invalid token. -/
def tokenInvalid (qr : QueryResponse) : Prop :=
  qr.Code = 401 ∨ (qr.Code ≠ 200 ∧ stringsContains qr.Msg "token".toList = true)

instance (qr : QueryResponse) : Decidable (tokenInvalid qr) := by
  unfold tokenInvalid; exact inferInstance

/-- How one turn of the loop of `queryIcp` ends: with a `return` or with `continue`. -/
inductive Attempt where
  | done (r : Except Err (List Str))
  | again

/-- The body of the loop of `queryIcp`.  (`json.Marshal` and `http.NewRequest`
cannot fail here, so those branches are left out.) -/
def queryAttempt (unitName serviceType : Str) (w : World) : Attempt × World :=
  match getTokenAndSignIfNeeded w with
  | (.error e, w) => (.done (.error e), w)
  | (.ok (token, sign), w) =>
    let reply := w.queryReplies w.queryCalls
    let w := { w with queryCalls := w.queryCalls + 1,
                      trace := w.trace ++ [.queryRequest unitName serviceType token sign] }
    match reply with
    | .fail e => (.done (.error (.lib e)), w)
    | .body b =>
      match b.unmarshal with
      | .error e => (.done (.error (.lib e)), w)
      | .ok qr =>
        if tokenInvalid qr then
          (.again, { w with cachedToken := [], cachedSign := [], trace := w.trace ++ [.credCleared] })
        else if qr.Code ≠ 200 then (.done (.error (.queryRejected qr.Msg)), w)
        else if qr.List.length = 0 then (.done (.ok []), w)
        else
          (.done (.ok (qr.List.map
            (fun item => if serviceType = "1".toList then item.Domain else item.ServiceName))), w)

/-- The loop `for try = 0; try < 2; try++` of `queryIcp`, with the number of
turns still allowed. -/
def queryIcpLoop (unitName serviceType : Str) : Nat → World → Except Err (List Str) × World
  | 0, w => (.error .tokenRetries, w)
  | n + 1, w =>
    match queryAttempt unitName serviceType w with
    | (.done r, w) => (r, w)
    | (.again, w) => queryIcpLoop unitName serviceType n w

/-- Go `queryIcp`. -/
def queryIcp (unitName serviceType : Str) (w : World) : Except Err (List Str) × World :=
  queryIcpLoop unitName serviceType 2 w

/-! ## Retry supervisor (`queryIcpWithRetry`) -/

/-- The loop `for i := 0; i < 5; i++` of `queryIcpWithRetry`, with the number of
turns still allowed and `lastErr`; the callee and the sleep act on a state `σ`. -/
def retryLoop {σ : Type} (queryIcp : σ → Except Err (List Str) × σ) (sleep : Nat → σ → σ) :
    Nat → Err → σ → Except Err (List Str) × σ
  | 0, lastErr, w => (.error (.retriesExhausted lastErr), w)
  | n + 1, _, w =>
    match queryIcp w with
    | (.ok res, w) => (.ok res, w)
    | (.error err, w) => retryLoop queryIcp sleep n err (sleep 2 w)

/-- Go `queryIcpWithRetry`, over the callee `queryIcp` and `time.Sleep`. -/
def queryIcpWithRetry {σ : Type} (queryIcp : Str → Str → σ → Except Err (List Str) × σ)
    (sleep : Nat → σ → σ) (unitName serviceType : Str) (w : σ) : Except Err (List Str) × σ :=
  retryLoop (queryIcp unitName serviceType) sleep 5 .nilError w

/-- `queryIcpWithRetry` of the program: on the world, over `queryIcp`. -/
def World.queryIcpWithRetry (unitName serviceType : Str) (w : World) :
    Except Err (List Str) × World :=
  IcpSearch.queryIcpWithRetry queryIcp World.sleep unitName serviceType w

/-- The callee of `queryIcpWithRetry` seen as a sequence of per-attempt results. -/
structure Attempts where
  /-- the result of the n-th call of `queryIcp` -/
  results : Nat → Except Err (List Str)
  calls : Nat
  /-- the durations of the sleeps so far, in seconds -/
  sleeps : List Nat

/-- A call of `queryIcp` takes the next result of the sequence. -/
def Attempts.queryIcp (_unitName _serviceType : Str) (a : Attempts) :
    Except Err (List Str) × Attempts :=
  (a.results a.calls, { a with calls := a.calls + 1 })

/-- A sleep is recorded with its duration. -/
def Attempts.sleep (n : Nat) (a : Attempts) : Attempts :=
  { a with sleeps := a.sleeps ++ [n] }

/-! ## Go maps -/

/-- A Go `map[string]V`: its entries, keys pairwise distinct. -/
abbrev GoMap (V : Type) := List (Str × V)

/-- `m[k]` with the presence flag. -/
def mapGet? {V : Type} : GoMap V → Str → Option V
  | [], _ => none
  | (k0, v0) :: m, k => if k0 = k then some v0 else mapGet? m k

/-- `m[k]`, the zero value `zero` standing for an absent key. -/
def mapGet {V : Type} (m : GoMap V) (k : Str) (zero : V) : V := (mapGet? m k).getD zero

/-- `m[k] = v`. -/
def mapSet {V : Type} : GoMap V → Str → V → GoMap V
  | [], k, v => [(k, v)]
  | (k0, v0) :: m, k, v => if k0 = k then (k, v) :: m else (k0, v0) :: mapSet m k v

/-- The keys of the map. -/
def mapKeys {V : Type} : GoMap V → List Str
  | [] => []
  | (k0, _) :: m => k0 :: mapKeys m

/-- Go `typeMap`. -/
def typeMap : GoMap Str :=
  [("1".toList, "1".toList), ("2".toList, "6".toList), ("3".toList, "7".toList)]

/-! ## Batch orchestrator (the query loop of `main`) -/

/-- The two maps the query loop of `main` fills. -/
structure Batch where
  resultTable : GoMap (GoMap (List Str))
  failedCompanies : GoMap Bool
  deriving DecidableEq

/-- The body of `for _, t := range validTypes` in `main`, over the callee
`queryIcpWithRetry` and `time.Sleep`. -/
def categoryStep {σ : Type} (queryIcpWithRetry : Str → Str → σ → Except Err (List Str) × σ)
    (sleep : Nat → σ → σ) (target : Str) (st : Batch × σ) (t : Str) : Batch × σ :=
  let stype := mapGet typeMap t []
  match queryIcpWithRetry target stype st.2 with
  | (.error _, w) =>
    ({ st.1 with failedCompanies := mapSet st.1.failedCompanies target true }, w)
  | (.ok res, w) =>
    let inner := mapSet (mapGet st.1.resultTable target []) t res
    ({ st.1 with resultTable := mapSet st.1.resultTable target inner }, sleep 2 w)

/-- The body of `for idx, target := range targets` in `main` (the progress
output does not touch the state and is left out). -/
def targetStep {σ : Type} (queryIcpWithRetry : Str → Str → σ → Except Err (List Str) × σ)
    (sleep : Nat → σ → σ) (validTypes : List Str) (st : Batch × σ) (target : Str) : Batch × σ :=
  let st1 : Batch × σ := ({ st.1 with resultTable := mapSet st.1.resultTable target [] }, st.2)
  validTypes.foldl (categoryStep queryIcpWithRetry sleep target) st1

/-- The query loop of `main`, from the two empty maps. -/
def batchLoop {σ : Type} (queryIcpWithRetry : Str → Str → σ → Except Err (List Str) × σ)
    (sleep : Nat → σ → σ) (targets validTypes : List Str) (w : σ) : Batch × σ :=
  targets.foldl (targetStep queryIcpWithRetry sleep validTypes) (⟨[], []⟩, w)

/-- The query loop of `main` of the program: on the world, over
`queryIcpWithRetry`. -/
def World.batchLoop (targets validTypes : List Str) (w : World) : Batch × World :=
  IcpSearch.batchLoop World.queryIcpWithRetry World.sleep targets validTypes w

/-- `queryIcpWithRetry` as a function of the target and the service type, on a
trivial state. -/
def pureQuery (f : Str → Str → Except Err (List Str)) (unitName serviceType : Str) (u : Unit) :
    Except Err (List Str) × Unit :=
  (f unitName serviceType, u)

/-- A sleep on the trivial state. -/
def pureSleep (_n : Nat) (u : Unit) : Unit := u

/-- What the query loop of `main` does, in order. -/
inductive BatchEvent where
  /-- a call `queryIcpWithRetry(target, stype)` -/
  | query (unitName serviceType : Str)
  /-- `time.Sleep(n * time.Second)` in the loop -/
  | sleep (seconds : Nat)
  deriving DecidableEq

/-- The callee of the query loop as a pattern of outcomes, with the trace of
the loop. -/
structure Sim where
  /-- the outcome of the n-th call of `queryIcpWithRetry`, given its arguments -/
  answers : Nat → Str → Str → Except Err (List Str)
  calls : Nat
  trace : List BatchEvent

/-- A call of `queryIcpWithRetry`: recorded, and answered by the pattern. -/
def Sim.query (unitName serviceType : Str) (s : Sim) : Except Err (List Str) × Sim :=
  (s.answers s.calls unitName serviceType,
   { s with calls := s.calls + 1, trace := s.trace ++ [.query unitName serviceType] })

/-- A sleep of the loop: recorded. -/
def Sim.sleep (n : Nat) (s : Sim) : Sim :=
  { s with trace := s.trace ++ [.sleep n] }

/-! ## Export (the spreadsheet loop of `main`) -/

/-- Go `strings.Join`. -/
def stringsJoin : List Str → Str → Str
  | [], _ => []
  | [a], _ => a
  | a :: b :: rest, sep => a ++ sep ++ stringsJoin (b :: rest) sep

/-- One row of the sheet: the value written to each column, if any. -/
structure Row where
  rowNum : Nat
  A : Option Str
  B : Option Str
  C : Option Str
  D : Option Str
  E : Option Str
  F : Option Str
  deriving DecidableEq

/-- The cell text `strings.Join(resultTable[k][t], ",")`. -/
def cellValue (resultTable : GoMap (GoMap (List Str))) (k t : Str) : Str :=
  stringsJoin (mapGet (mapGet resultTable k []) t []) ",".toList

/-- The flag `allEmpty` after the loop over the three categories. -/
def allEmpty (vals : List Str) : Bool :=
  vals.foldl (fun acc val => if val ≠ [] then false else acc) true

/-- The body of `for _, k := range keys` in `main`. -/
def exportRow (resultTable : GoMap (GoMap (List Str))) (failedCompanies : GoMap Bool)
    (row : Nat) (k : Str) : Row :=
  let b := cellValue resultTable k "1".toList
  let c := cellValue resultTable k "2".toList
  let d := cellValue resultTable k "3".toList
  let failed := mapGet failedCompanies k false
  { rowNum := row, A := some k, B := some b, C := some c, D := some d,
    E := if allEmpty [b, c, d] = true ∧ ¬ failed = true then some k else none,
    F := if failed = true then some k else none }

/-- The loop `for _, k := range keys` of `main`, from the given row number. -/
def exportRows (resultTable : GoMap (GoMap (List Str))) (failedCompanies : GoMap Bool) :
    Nat → List Str → List Row
  | _, [] => []
  | row, k :: ks =>
    exportRow resultTable failedCompanies row k :: exportRows resultTable failedCompanies (row + 1) ks

/-- Go `sort.Strings`: the keys in increasing lexicographic order. -/
def sortStrings (keys : List Str) : List Str := keys.insertionSort (fun a b => a ≤ b)

/-- The rows written by `main` below the header. -/
def exportSheet (resultTable : GoMap (GoMap (List Str))) (failedCompanies : GoMap Bool) :
    List Row :=
  exportRows resultTable failedCompanies 2 (sortStrings (mapKeys resultTable))

/-! ## Auxiliary definitions for the statements -/

/-- The trimmed targets that are not blank, in input order. -/
def trimmedTargets (targets : List Str) : List Str :=
  (targets.map TrimSpace).filter (fun t => t ≠ [])

/-- The first occurrence of every entry that is not in `seen`, in list order. -/
def keepFirst (seen : List Str) : List Str → List Str
  | [] => []
  | x :: xs => if x ∈ seen then keepFirst seen xs else x :: keepFirst (x :: seen) xs

/-- The position of the first occurrence of `a` (the length when absent). -/
def firstIndex (a : Str) : List Str → Nat
  | [] => 0
  | x :: xs => if x = a then 0 else firstIndex a xs + 1

/-- Specification of a deduplicated target list, in the words of the claim: `R`
has no two equal entries, no entry that is empty or has leading or trailing
white space, holds exactly the trimmed non-blank entries of `T`, and orders
them by their first occurrence among the trimmed entries of `T`. -/
def FirstOccurrenceDedup (T R : List Str) : Prop :=
  R.Nodup ∧
  (∀ t ∈ R, t ≠ [] ∧
    (∀ c, t.head? = some c → isSpace c = false) ∧
    (∀ c, t.getLast? = some c → isSpace c = false)) ∧
  (∀ t, t ∈ R ↔ t ≠ [] ∧ ∃ x ∈ T, TrimSpace x = t) ∧
  (∀ a ∈ R, ∀ b ∈ R,
    (firstIndex a R < firstIndex b R ↔
      firstIndex a (T.map TrimSpace) < firstIndex b (T.map TrimSpace)))

/-- The value fits a Go `int64`. -/
def IsInt64 (x : Int) : Prop := -2 ^ 63 ≤ x ∧ x < 2 ^ 63

instance (x : Int) : Decidable (IsInt64 x) := by unfold IsInt64; exact inferInstance

/-- A clock that stands still at `t` seconds. -/
def fixedClock (t : Int) : Nat → Time := fun _ => ⟨t, t * 1000000000⟩

/-- An authentication reply with code 200, token `T`, signature `S` and the
given reading of `params.expire`. -/
def authOk (expire : Int) : HttpReply AuthBody :=
  .body { raw := [123, 125], unmarshal := .ok ⟨200, [], "T".toList, "S".toList⟩, expire := expire }

/-- A query reply that parses to the given response. -/
def queryReply (qr : QueryResponse) : HttpReply QueryBody := .body ⟨.ok qr⟩

/-- A world with an empty credential cache at time 1000, where every
authentication succeeds with the given `params.expire` and every query gets
the given reply. -/
def freshWorld (expire : Int) (replies : Nat → HttpReply QueryBody) : World :=
  { cachedToken := [], cachedSign := [], tokenExpireAt := 0,
    clock := fixedClock 1000, ticks := 0,
    authReplies := fun _ => authOk expire, authCalls := 0,
    queryReplies := replies, queryCalls := 0, trace := [] }

/-- A world whose cached credential expires 1000 seconds after the clock. -/
def cachedWorld : World :=
  { freshWorld 0 (fun _ => .fail []) with
    cachedToken := "T".toList, cachedSign := "S".toList, tokenExpireAt := 2000 }

/-- A world with an empty credential cache in which every query is answered
with the code 401. -/
def staleWorld : World := freshWorld 60000 (fun _ => queryReply ⟨401, [], []⟩)

/-- Attempts of `queryIcp` that fail four times and then succeed with `x.com`. -/
def failFourTimes : Nat → Except Err (List Str) :=
  fun n => if n < 4 then .error (.lib []) else .ok ["x.com".toList]

/-- Attempts of `queryIcp` that fail every time. -/
def alwaysFail : Nat → Except Err (List Str) := fun _ => .error .tokenRetries

/-- The target `X` is found with `x.com`, every other target exhausts its retries. -/
def exampleAnswers (unitName _serviceType : Str) : Except Err (List Str) :=
  if unitName = "X".toList then .ok ["x.com".toList]
  else .error (.retriesExhausted .tokenRetries)

/-- The `timeStamp` field of an authentication request sent from `w`. -/
def authTimeStamp (w : World) : Int := Int.tdiv (w.clock (w.ticks + 1)).UnixNano 1000000

/-- What the two maps hold once the targets `P` have been processed, when the
queries are answered by `f`. -/
def BatchInv (f : Str → Str → Except Err (List Str)) (cats P : List Str) (b : Batch) : Prop :=
  mapKeys b.resultTable = P ∧
  (∀ tg ∈ P, ∀ t o, mapGet? (mapGet b.resultTable tg []) t = some o ↔
    t ∈ cats ∧ f tg (mapGet typeMap t []) = .ok o) ∧
  (∀ k, mapGet b.failedCompanies k false = true ↔
    k ∈ P ∧ ∃ t ∈ cats, ∃ e, f k (mapGet typeMap t []) = .error e)

/-- The calls `queryIcpWithRetry(target, typeMap[t])` of the query loop, in order. -/
def queryPairs (targets cats : List Str) : List (Str × Str) :=
  targets.flatMap (fun tg => cats.map (fun t => (tg, mapGet typeMap t [])))

/-- Whether each call succeeds, the first one being call number `n`. -/
def outcomes (answers : Nat → Str → Str → Except Err (List Str)) :
    Nat → List (Str × Str) → List Bool
  | _, [] => []
  | n, (u, s) :: ps => (answers n u s).toBool :: outcomes answers (n + 1) ps

/-- The trace in which every call is followed by a 2-second sleep exactly when
it succeeds. -/
def loopTrace (answers : Nat → Str → Str → Except Err (List Str)) :
    Nat → List (Str × Str) → List BatchEvent
  | _, [] => []
  | n, (u, s) :: ps =>
    .query u s :: ((if (answers n u s).toBool then [.sleep 2] else []) ++
      loopTrace answers (n + 1) ps)

/-- The event is a call of `queryIcpWithRetry`. -/
def BatchEvent.isQuery : BatchEvent → Bool
  | .query _ _ => true
  | .sleep _ => false

/-- A result table whose only outcome is one match with an empty identifier. -/
def blankTable : GoMap (GoMap (List Str)) := [("X".toList, [("1".toList, [[]])])]

/-! ## Theorems -/

theorem head_TrimSpace (s : Str) (c : Char) (h : (TrimSpace s).head? = some c) :
    isSpace c = false := by
  unfold TrimSpace at h
  have hp : (List.rdropWhile isSpace (List.dropWhile isSpace s)) <+: List.dropWhile isSpace s :=
    List.rdropWhile_prefix _ _
  obtain ⟨t, ht⟩ := hp
  have h2 := List.head?_dropWhile_not isSpace s
  rw [← ht] at h2
  cases hr : List.rdropWhile isSpace (List.dropWhile isSpace s) with
  | nil => rw [hr] at h; simp at h
  | cons x xs =>
    rw [hr] at h h2
    simp at h h2
    subst h
    simpa using h2

theorem getLast_TrimSpace (s : Str) (c : Char) (h : (TrimSpace s).getLast? = some c) :
    isSpace c = false := by
  unfold TrimSpace at h
  have hne : List.rdropWhile isSpace (List.dropWhile isSpace s) ≠ [] := by
    intro h0; rw [h0] at h; simp at h
  have := List.rdropWhile_last_not isSpace (List.dropWhile isSpace s) hne
  rw [List.getLast?_eq_getLast _ hne] at h
  simp at h
  rw [← h]
  simpa using this

theorem TrimSpace_eq_self (t : Str) (hh : ∀ c, t.head? = some c → isSpace c = false)
    (hl : ∀ c, t.getLast? = some c → isSpace c = false) : TrimSpace t = t := by
  unfold TrimSpace
  have h1 : List.dropWhile isSpace t = t := by
    cases t with
    | nil => rfl
    | cons x xs =>
      have := hh x (by simp)
      simp [List.dropWhile, this]
  rw [h1]
  rw [List.rdropWhile_eq_self_iff]
  intro hne
  have := hl (t.getLast hne) (List.getLast?_eq_getLast _ hne)
  simp [this]

theorem TrimSpace_idem (s : Str) : TrimSpace (TrimSpace s) = TrimSpace s :=
  TrimSpace_eq_self _ (head_TrimSpace s) (getLast_TrimSpace s)

theorem matchAlias_append (B : Str) (hn : '\n' ∉ B) : matchAlias (B ++ [')']) = some B := by
  induction B with
  | nil => simp [matchAlias]
  | cons c B ih =>
    simp only [List.mem_cons, not_or] at hn
    have hc : ¬ (c = '\n') := fun h => hn.1 h.symm
    simp [matchAlias, ih hn.2, hc]

theorem matchAlias_length (s q : Str) (h : matchAlias s = some q) : s = q ++ [')'] ∧ '\n' ∉ q := by
  induction s generalizing q with
  | nil => simp [matchAlias] at h
  | cons c rest ih =>
    unfold matchAlias at h
    split at h
    · rename_i h1
      simp at h
      subst h
      simp [h1.1, h1.2]
    · split at h
      · simp at h
      · rename_i hc
        cases hr : matchAlias rest with
        | none => rw [hr] at h; simp at h
        | some q0 =>
          rw [hr] at h
          simp at h
          subst h
          obtain ⟨h1, h2⟩ := ih q0 hr
          refine ⟨by simp [h1], ?_⟩
          simp only [List.mem_cons, not_or]
          exact ⟨fun h => hc h.symm, h2⟩

theorem matchBrackets_append (A B : Str) (hA : '(' ∉ A) (hnA : '\n' ∉ A) (hnB : '\n' ∉ B) :
    matchBrackets (A ++ '(' :: (B ++ [')'])) = some (A, B) := by
  induction A with
  | nil => simp [matchBrackets, matchAlias_append B hnB]
  | cons c A ih =>
    simp only [List.mem_cons, not_or] at hA hnA
    have hc : ¬ (c = '\n') := fun h => hnA.1 h.symm
    have hc2 : ¬ (c = '(') := fun h => hA.1 h.symm
    simp [matchBrackets, ih hA.2 hnA.2, hc, hc2]

theorem matchBrackets_none (s : Str) (h : '(' ∉ s) : matchBrackets s = none := by
  induction s with
  | nil => rfl
  | cons c s ih =>
    simp only [List.mem_cons, not_or] at h
    have hc2 : ¬ (c = '(') := fun h0 => h.1 h0.symm
    simp [matchBrackets, ih h.2, hc2]

/-- The pattern of `splitBrackets` matches exactly the texts `p(q)` without a
newline, and the groups are the text before the first `(` and the text between
it and the final `)`. -/
theorem matchBrackets_eq_some (s p q : Str) :
    matchBrackets s = some (p, q) ↔
      s = p ++ '(' :: (q ++ [')']) ∧ '(' ∉ p ∧ '\n' ∉ p ∧ '\n' ∉ q := by
  constructor
  · intro h
    induction s generalizing p with
    | nil => simp [matchBrackets] at h
    | cons c rest ih =>
      unfold matchBrackets at h
      split at h
      · rename_i q0 hq0
        simp at h
        obtain ⟨h1, h2⟩ := h
        subst h1 h2
        split at hq0
        · rename_i hc
          obtain ⟨h1, h2⟩ := matchAlias_length rest q0 hq0
          simp [hc, h1, h2]
        · simp at hq0
      · rename_i hnone
        split at h
        · simp at h
        · rename_i hc
          cases hr : matchBrackets rest with
          | none => rw [hr] at h; simp at h
          | some m =>
            rw [hr] at h
            simp at h
            obtain ⟨h1, h2⟩ := h
            subst h1 h2
            obtain ⟨e1, e2, e3, e4⟩ := ih m.1 (by rw [hr])
            refine ⟨by rw [e1]; simp, ?_, ?_, e4⟩
            · simp only [List.mem_cons, not_or]
              refine ⟨?_, e2⟩
              intro hc0
              subst hc0
              simp at hnone
              have hfull := matchAlias_append (m.1 ++ '(' :: m.2)
                (by simp only [List.mem_append, List.mem_cons, not_or]; exact ⟨e3, by decide, e4⟩)
              have hrest : rest = (m.1 ++ '(' :: m.2) ++ [')'] := by rw [e1]; simp
              rw [← hrest, hnone] at hfull
              simp at hfull
            · simp only [List.mem_cons, not_or]
              exact ⟨fun h => hc h.symm, e3⟩
  · rintro ⟨rfl, h1, h2, h3⟩
    exact matchBrackets_append p q h1 h2 h3

theorem foldl_uniqStep (T : List Str) (u r : List Str) :
    (T.foldl uniqStep (u, r)).2 = r ++ keepFirst u (trimmedTargets T) := by
  induction T generalizing u r with
  | nil => simp [trimmedTargets, keepFirst]
  | cons t T ih =>
    simp only [List.foldl_cons]
    by_cases h1 : TrimSpace t = []
    · have hs : uniqStep (u, r) t = (u, r) := by simp [uniqStep, h1]
      rw [hs, ih]
      simp [h1, trimmedTargets]
    · by_cases h2 : TrimSpace t ∈ u
      · have hs : uniqStep (u, r) t = (u, r) := by simp [uniqStep, h1, h2]
        rw [hs, ih]
        simp [h1, h2, trimmedTargets, keepFirst]
      · have hs : uniqStep (u, r) t = (TrimSpace t :: u, r ++ [TrimSpace t]) := by
          simp [uniqStep, h1, h2]
        rw [hs, ih]
        simp [h1, h2, trimmedTargets, keepFirst]

theorem uniqTargets_eq (T : List Str) : uniqTargets T = keepFirst [] (trimmedTargets T) := by
  simp [uniqTargets, foldl_uniqStep]

theorem mem_keepFirst (l seen : List Str) (x : Str) :
    x ∈ keepFirst seen l ↔ x ∈ l ∧ x ∉ seen := by
  induction l generalizing seen with
  | nil => simp [keepFirst]
  | cons y l ih =>
    unfold keepFirst
    by_cases hy : y ∈ seen
    · simp only [hy, if_true, ih, List.mem_cons]
      constructor
      · rintro ⟨h1, h2⟩; exact ⟨Or.inr h1, h2⟩
      · rintro ⟨h1 | h1, h2⟩
        · subst h1; exact absurd hy h2
        · exact ⟨h1, h2⟩
    · simp only [hy, if_false, List.mem_cons, ih, not_or]
      constructor
      · rintro (h1 | ⟨h1, h2, h3⟩)
        · subst h1; exact ⟨Or.inl rfl, hy⟩
        · exact ⟨Or.inr h1, h3⟩
      · rintro ⟨h1 | h1, h2⟩
        · exact Or.inl h1
        · by_cases hxy : x = y
          · exact Or.inl hxy
          · exact Or.inr ⟨h1, hxy, h2⟩

theorem nodup_keepFirst (l seen : List Str) : (keepFirst seen l).Nodup := by
  induction l generalizing seen with
  | nil => simp [keepFirst]
  | cons y l ih =>
    unfold keepFirst
    by_cases hy : y ∈ seen
    · simp [hy, ih]
    · simp only [hy, if_false, List.nodup_cons, ih, and_true, mem_keepFirst]
      simp

theorem firstIndex_keepFirst (l seen : List Str) (a b : Str)
    (ha : a ∈ keepFirst seen l) (hb : b ∈ keepFirst seen l) :
    (firstIndex a (keepFirst seen l) < firstIndex b (keepFirst seen l) ↔
      firstIndex a l < firstIndex b l) := by
  induction l generalizing seen with
  | nil => simp [keepFirst] at ha
  | cons y l ih =>
    unfold keepFirst at ha hb ⊢
    by_cases hy : y ∈ seen
    · simp only [hy, if_true] at ha hb ⊢
      have ha2 := (mem_keepFirst l seen a).1 ha
      have hb2 := (mem_keepFirst l seen b).1 hb
      have hay : y ≠ a := fun h => ha2.2 (h ▸ hy)
      have hby : y ≠ b := fun h => hb2.2 (h ▸ hy)
      simp only [firstIndex, hay, hby, if_false, ih seen ha hb]
      omega
    · simp only [hy, if_false] at ha hb ⊢
      by_cases hay : y = a
      · subst hay
        by_cases hby : y = b
        · subst hby; simp [firstIndex]
        · simp [firstIndex, hby]
      · by_cases hby : y = b
        · subst hby; simp [firstIndex, hay]
        · have ha2 : a ∈ keepFirst (y :: seen) l := by
            rcases List.mem_cons.1 ha with h | h
            · exact absurd h.symm hay
            · exact h
          have hb2 : b ∈ keepFirst (y :: seen) l := by
            rcases List.mem_cons.1 hb with h | h
            · exact absurd h.symm hby
            · exact h
          have := ih (y :: seen) ha2 hb2
          simp only [firstIndex, hay, hby, if_false]
          omega

theorem keepFirst_nodup_self (l seen : List Str) (hl : l.Nodup) (hs : ∀ x ∈ l, x ∉ seen) :
    keepFirst seen l = l := by
  induction l generalizing seen with
  | nil => rfl
  | cons y l ih =>
    unfold keepFirst
    have hy : y ∉ seen := hs y (by simp)
    rw [List.nodup_cons] at hl
    simp only [hy, if_false]
    rw [ih (y :: seen) hl.2]
    intro x hx
    simp only [List.mem_cons, not_or]
    exact ⟨fun h => hl.1 (h ▸ hx), hs x (by simp [hx])⟩

theorem scanTargets_eq (lines : List Str) (acc : List Str) :
    lines.foldl scanStep acc =
      acc ++ (lines.map (fun text => if TrimSpace text = [] then [] else splitBrackets (TrimSpace text))).flatten := by
  induction lines generalizing acc with
  | nil => simp
  | cons l ls ih =>
    simp only [List.foldl_cons, List.map_cons, List.flatten_cons, ih]
    unfold scanStep
    by_cases h : TrimSpace l = [] <;> simp [h]

/-- C6: for strings `A`, `B` without a parenthesis or a newline whose trimmed
forms are non-blank and distinct, parsing the single string `A(B)`, which names
no file, gives exactly `[trim A, trim B]`; and for a non-blank `A` without a
parenthesis, parsing `A` gives exactly `[trim A]`. -/
theorem parseTargets_bracket (A B : Str) :
    (('(' ∉ A ∧ ')' ∉ A ∧ '\n' ∉ A) → ('(' ∉ B ∧ ')' ∉ B ∧ '\n' ∉ B) →
      TrimSpace A ≠ [] → TrimSpace B ≠ [] → TrimSpace A ≠ TrimSpace B →
      parseTargets (A ++ '(' :: (B ++ [')'])) .notFound = .ok [TrimSpace A, TrimSpace B]) ∧
    (('(' ∉ A ∧ ')' ∉ A) → TrimSpace A ≠ [] →
      parseTargets A .notFound = .ok [TrimSpace A]) := by
  constructor
  · intro hA hB h1 h2 h3
    have hm := matchBrackets_append A B hA.1 hA.2.2 hB.2.2
    have h3' : TrimSpace B ≠ TrimSpace A := fun h => h3 h.symm
    simp [parseTargets, rawTargets, splitBrackets, hm, uniqTargets, uniqStep, TrimSpace_idem,
      h1, h2, h3']
  · intro hA h1
    have hm := matchBrackets_none A hA.1
    simp [parseTargets, rawTargets, splitBrackets, hm, uniqTargets, uniqStep, h1]

/-- The two instances named in C6: `parse("A(B)") = ["A","B"]` and
`parse("A") = ["A"]`. -/
theorem parseTargets_bracket_witness :
    parseTargets "A(B)".toList .notFound = .ok ["A".toList, "B".toList] ∧
    parseTargets "A".toList .notFound = .ok ["A".toList] :=
  ⟨(parseTargets_bracket "A".toList "B".toList).1 (by decide) (by decide) (by decide) (by decide)
      (by decide),
   (parseTargets_bracket "A".toList []).2 (by decide) (by decide)⟩

theorem firstIndex_filter (p : Str → Bool) (l : List Str) (a b : Str)
    (ha : p a = true) (hb : p b = true) :
    (firstIndex a (l.filter p) < firstIndex b (l.filter p) ↔
      firstIndex a l < firstIndex b l) := by
  induction l with
  | nil => simp [firstIndex]
  | cons y l ih =>
    by_cases hya : y = a
    · subst hya
      by_cases hyb : y = b
      · subst hyb; simp [List.filter, ha, firstIndex]
      · simp [List.filter, ha, firstIndex, hyb]
    · by_cases hyb : y = b
      · subst hyb; simp [List.filter, hb, firstIndex, hya]
      · cases hp : p y
        · simp only [List.filter, hp, firstIndex, hya, hyb, if_false]
          omega
        · simp only [List.filter, hp, firstIndex, hya, hyb, if_false]
          omega

theorem uniqTargets_spec (T : List Str) : FirstOccurrenceDedup T (uniqTargets T) := by
  have hmem : ∀ t, t ∈ uniqTargets T ↔ t ≠ [] ∧ ∃ x ∈ T, TrimSpace x = t := by
    intro t
    rw [uniqTargets_eq, mem_keepFirst]
    simp only [trimmedTargets, List.mem_filter, List.mem_map, List.not_mem_nil, not_false_eq_true,
      and_true, decide_eq_true_eq]
    tauto
  refine ⟨?_, ?_, hmem, ?_⟩
  · rw [uniqTargets_eq]; exact nodup_keepFirst _ _
  · intro t ht
    obtain ⟨h1, x, _, hx⟩ := (hmem t).1 ht
    subst hx
    exact ⟨h1, head_TrimSpace x, getLast_TrimSpace x⟩
  · intro a ha b hb
    have ha1 := ((hmem a).1 ha).1
    have hb1 := ((hmem b).1 hb).1
    rw [uniqTargets_eq] at ha hb ⊢
    rw [firstIndex_keepFirst _ _ a b ha hb]
    unfold trimmedTargets
    exact firstIndex_filter _ _ a b (by simpa using ha1) (by simpa using hb1)

theorem scanTargets_flatMap (lines : List Str) :
    scanTargets lines =
      lines.flatMap (fun line =>
        if TrimSpace line = [] then [] else splitBrackets (TrimSpace line)) := by
  unfold scanTargets
  rw [scanTargets_eq, List.nil_append, List.flatMap_def]

theorem splitBrackets_spec (s : Str) :
    (∀ p q, s = p ++ '(' :: (q ++ [')']) → '(' ∉ p → '\n' ∉ p → '\n' ∉ q →
      splitBrackets s = [TrimSpace p, TrimSpace q]) ∧
    ((¬ ∃ p q, s = p ++ '(' :: (q ++ [')']) ∧ '(' ∉ p ∧ '\n' ∉ p ∧ '\n' ∉ q) →
      splitBrackets s = [s]) := by
  constructor
  · intro p q hs h1 h2 h3
    have := (matchBrackets_eq_some s p q).2 ⟨hs, h1, h2, h3⟩
    simp [splitBrackets, this]
  · intro h
    cases hm : matchBrackets s with
    | none => simp [splitBrackets, hm]
    | some m =>
      exact absurd ⟨m.1, m.2, (matchBrackets_eq_some s m.1 m.2).1 (by rw [hm])⟩ h

/-- C7: for every input the list returned by `parseTargets` is the first-occurrence
deduplication of the targets of the input: of `splitBrackets targetArg` for a
single string, and for a file of the targets obtained line by line, in line
order, by trimming the line, skipping it when blank and splitting it.  That is
(`FirstOccurrenceDedup`) the list has no two equal entries, no entry that is
empty or has leading or trailing white space, contains exactly the trimmed
non-blank targets, and orders them by their first occurrence in the input.  A
file that cannot be opened or scanned gives the error and no list.  Bracket
splitting gives the two trimmed groups of a line `p(q)` (`p` without `(`, no
newline) and the line itself otherwise. -/
theorem parseTargets_dedup (targetArg : Str) (lines : List Str) (e : Str) :
    (∃ R, parseTargets targetArg .notFound = .ok R ∧
      FirstOccurrenceDedup (splitBrackets targetArg) R) ∧
    (∃ R, parseTargets targetArg (.file lines none) = .ok R ∧
      FirstOccurrenceDedup
        (lines.flatMap (fun line =>
          if TrimSpace line = [] then [] else splitBrackets (TrimSpace line))) R) ∧
    parseTargets targetArg (.openError e) = .error (.lib e) ∧
    parseTargets targetArg (.file lines (some e)) = .error (.lib e) ∧
    (∀ s : Str,
      (∀ p q, s = p ++ '(' :: (q ++ [')']) → '(' ∉ p → '\n' ∉ p → '\n' ∉ q →
        splitBrackets s = [TrimSpace p, TrimSpace q]) ∧
      ((¬ ∃ p q, s = p ++ '(' :: (q ++ [')']) ∧ '(' ∉ p ∧ '\n' ∉ p ∧ '\n' ∉ q) →
        splitBrackets s = [s])) := by
  refine ⟨⟨uniqTargets (splitBrackets targetArg), ?_, uniqTargets_spec _⟩,
    ⟨uniqTargets (scanTargets lines), rfl, ?_⟩, rfl, rfl, splitBrackets_spec⟩
  · simp [parseTargets, rawTargets]
  · rw [scanTargets_flatMap lines]
    exact uniqTargets_spec _

/-- A file with padded, blank, bracketed and repeated lines, evaluated. -/
theorem parseTargets_file_example :
    parseTargets "list.txt".toList
        (.file ["  x (y) ".toList, "".toList, "y".toList, " ".toList, "()".toList,
          "z".toList, "x".toList] none) =
      .ok ["x".toList, "y".toList, "z".toList] := by decide

/-- C9 (counterexample): the line `A(B(C))` is parsed to `A`, `B(C)`, and
parsing that result again gives `A`, `B`, `C`. -/
theorem parseLines_not_fixed :
    parseLines (parseLines ["A(B(C))".toList]) ≠ parseLines ["A(B(C))".toList] := by decide

theorem flatten_map_singleton (R : List Str) (g : Str → List Str) (h : ∀ r ∈ R, g r = [r]) :
    (R.map g).flatten = R := by
  induction R with
  | nil => rfl
  | cons r R ih =>
    simp only [List.map_cons, List.flatten_cons]
    rw [h r (by simp), ih (fun x hx => h x (by simp [hx]))]
    rfl

theorem trimmedTargets_self (R : List Str) (h : ∀ r ∈ R, r ≠ [] ∧ TrimSpace r = r) :
    trimmedTargets R = R := by
  induction R with
  | nil => rfl
  | cons r R ih =>
    have hr := h r (by simp)
    have := ih (fun x hx => h x (by simp [hx]))
    unfold trimmedTargets at this ⊢
    simp only [decide_not] at this
    simp [hr.1, hr.2, this]

theorem uniqTargets_trimmed (T : List Str) (t : Str) (ht : t ∈ uniqTargets T) :
    t ≠ [] ∧ TrimSpace t = t := by
  rw [uniqTargets_eq, mem_keepFirst] at ht
  simp only [trimmedTargets, List.mem_filter, List.mem_map, decide_eq_true_eq] at ht
  obtain ⟨⟨⟨x, _, hx⟩, hne⟩, _⟩ := ht
  subst hx
  exact ⟨hne, TrimSpace_idem x⟩

theorem length_TrimSpace_le (s : Str) : (TrimSpace s).length ≤ s.length := by
  unfold TrimSpace
  have h1 : (List.rdropWhile isSpace (List.dropWhile isSpace s)).length ≤
      (List.dropWhile isSpace s).length := (List.rdropWhile_prefix _ _).length_le
  have h2 : (List.dropWhile isSpace s).length ≤ s.length :=
    (List.dropWhile_suffix isSpace).length_le
  omega

theorem mem_scanTargets (R : List Str) (x : Str) :
    x ∈ scanTargets R ↔ ∃ l ∈ R, TrimSpace l ≠ [] ∧ x ∈ splitBrackets (TrimSpace l) := by
  unfold scanTargets
  rw [scanTargets_eq, List.nil_append, List.mem_flatten]
  constructor
  · rintro ⟨ys, hys, hx⟩
    obtain ⟨l, hl, rfl⟩ := List.mem_map.1 hys
    by_cases h : TrimSpace l = []
    · simp [h] at hx
    · simp only [h, if_false] at hx
      exact ⟨l, hl, h, hx⟩
  · rintro ⟨l, hl, h, hx⟩
    exact ⟨_, List.mem_map.2 ⟨l, hl, rfl⟩, by simpa [h] using hx⟩

theorem mem_splitBrackets_length (l x : Str) (hx : x ∈ splitBrackets l) :
    (matchBrackets l = none ∧ x = l) ∨ (matchBrackets l ≠ none ∧ x.length < l.length) := by
  unfold splitBrackets at hx
  cases hm : matchBrackets l with
  | none => rw [hm] at hx; exact Or.inl ⟨rfl, by simpa using hx⟩
  | some m =>
    rw [hm] at hx
    obtain ⟨e1, -, -, -⟩ := (matchBrackets_eq_some l m.1 m.2).1 (by rw [hm])
    have hlen : l.length = m.1.length + m.2.length + 2 := by
      rw [e1]; simp; omega
    have h1 := length_TrimSpace_le m.1
    have h2 := length_TrimSpace_le m.2
    simp only [List.mem_cons, List.mem_singleton, List.not_mem_nil, or_false] at hx
    rcases hx with rfl | rfl
    · exact Or.inr ⟨by simp, by omega⟩
    · exact Or.inr ⟨by simp, by omega⟩

theorem not_mem_parseLines_of_longest (R : List Str) (r : Str)
    (htr : ∀ l ∈ R, TrimSpace l = l)
    (hmatch : matchBrackets r ≠ none)
    (hmax : ∀ l ∈ R, matchBrackets l ≠ none → l.length ≤ r.length) :
    r ∉ parseLines R := by
  intro hr
  unfold parseLines at hr
  rw [uniqTargets_eq, mem_keepFirst] at hr
  simp only [trimmedTargets, List.mem_filter, List.mem_map] at hr
  obtain ⟨⟨⟨x, hx, hxr⟩, -⟩, -⟩ := hr
  obtain ⟨l, hl, -, hxl⟩ := (mem_scanTargets R x).1 hx
  rw [htr l hl] at hxl
  have hlen1 := length_TrimSpace_le x
  rw [hxr] at hlen1
  rcases mem_splitBrackets_length _ _ hxl with ⟨hnone, hxe⟩ | ⟨hlm, hlt⟩
  · rw [hxe, htr l hl] at hxr
    rw [hxr] at hnone
    exact hmatch hnone
  · have := hmax l hl hlm
    omega

theorem parseLines_ne_of_match (R : List Str) (htr : ∀ l ∈ R, TrimSpace l = l)
    (h : ∃ r ∈ R, matchBrackets r ≠ none) :
    parseLines R ≠ R := by
  obtain ⟨r0, hr0, hm0⟩ := h
  have hne : (R.filter (fun l => decide (matchBrackets l ≠ none))).toFinset.Nonempty :=
    ⟨r0, by simp [hr0, hm0]⟩
  obtain ⟨r, hr, hmax⟩ := Finset.exists_max_image _ (fun l : Str => l.length) hne
  simp only [List.mem_toFinset, List.mem_filter, decide_eq_true_eq] at hr hmax
  intro heq
  have := not_mem_parseLines_of_longest R r htr hr.2 (fun l hl hlm => hmax l ⟨hl, hlm⟩)
  rw [heq] at this
  exact this hr.1

/-- C9 (amended): parsing the targets `R` that `parseTargets` produces for the
lines `L` again, as lines, returns exactly `R` if and only if no target of `R`
is itself matched by the bracket pattern of `splitBrackets`. -/
theorem parseLines_fixed (L : List Str) :
    parseLines (parseLines L) = parseLines L ↔ ∀ r ∈ parseLines L, matchBrackets r = none := by
  have htr : ∀ r ∈ parseLines L, r ≠ [] ∧ TrimSpace r = r :=
    fun r hr => uniqTargets_trimmed (scanTargets L) r hr
  constructor
  · intro heq r hr
    by_contra hm
    exact parseLines_ne_of_match (parseLines L) (fun l hl => (htr l hl).2) ⟨r, hr, hm⟩ heq
  · intro h
    have hnd : (parseLines L).Nodup := by
      unfold parseLines; rw [uniqTargets_eq]; exact nodup_keepFirst _ _
    have hscan : scanTargets (parseLines L) = parseLines L := by
      unfold scanTargets
      rw [scanTargets_eq, List.nil_append]
      apply flatten_map_singleton
      intro r hr
      have h1 := htr r hr
      simp [h1.1, h1.2, splitBrackets, h r hr]
    show uniqTargets (scanTargets (parseLines L)) = parseLines L
    rw [hscan, uniqTargets_eq, trimmedTargets_self _ htr]
    exact keepFirst_nodup_self _ _ hnd (by simp)

/-- An instance of the amended C9: a file whose targets do not match the pattern
again is parsed to a fixed point. -/
theorem parseLines_fixed_witness :
    parseLines (parseLines ["A(B)".toList, " A ".toList, "C".toList]) =
      parseLines ["A(B)".toList, " A ".toList, "C".toList] :=
  (parseLines_fixed ["A(B)".toList, " A ".toList, "C".toList]).2 (by decide)

theorem wrap64_le (x : Int) (h : -2 ^ 63 ≤ x) : wrap64 x ≤ x := by
  unfold wrap64
  omega

/-- C4: when the cached token is non-empty and the expiry is more than 10
seconds after the clock reading, `getTokenAndSignIfNeeded` returns the cached
token and signature without an error, sends no request and changes nothing of
the world but the clock counter; a second call at a time still more than 10
seconds before the expiry returns the same value. -/
theorem getToken_cache_hit (w : World)
    (htok : w.cachedToken ≠ [])
    (hnow : IsInt64 (w.clock w.ticks).Unix)
    (hexp : w.tokenExpireAt > (w.clock w.ticks).Unix + 10) :
    getTokenAndSignIfNeeded w =
      (.ok (w.cachedToken, w.cachedSign), { w with ticks := w.ticks + 1 }) ∧
    (IsInt64 (w.clock (w.ticks + 1)).Unix →
      w.tokenExpireAt > (w.clock (w.ticks + 1)).Unix + 10 →
      getTokenAndSignIfNeeded (getTokenAndSignIfNeeded w).2 =
        (.ok (w.cachedToken, w.cachedSign), { w with ticks := w.ticks + 2 })) := by
  have key : ∀ v : World, v.cachedToken ≠ [] → IsInt64 (v.clock v.ticks).Unix →
      v.tokenExpireAt > (v.clock v.ticks).Unix + 10 →
      getTokenAndSignIfNeeded v =
        (.ok (v.cachedToken, v.cachedSign), { v with ticks := v.ticks + 1 }) := by
    intro v h1 h2 h3
    have hw : wrap64 ((v.clock v.ticks).Unix + 10) < v.tokenExpireAt := by
      have := wrap64_le ((v.clock v.ticks).Unix + 10) (by unfold IsInt64 at h2; omega)
      omega
    simp [getTokenAndSignIfNeeded, timeNow, h1, hw]
  refine ⟨key w htok hnow hexp, ?_⟩
  intro h2 h3
  rw [key w htok hnow hexp]
  exact key _ htok h2 h3

/-- An instance of C4: a credential cached until 2000, read at time 1000. -/
theorem getToken_cache_hit_witness :
    getTokenAndSignIfNeeded cachedWorld =
      (.ok (cachedWorld.cachedToken, cachedWorld.cachedSign),
        { cachedWorld with ticks := cachedWorld.ticks + 1 }) ∧
    (IsInt64 (cachedWorld.clock (cachedWorld.ticks + 1)).Unix →
      cachedWorld.tokenExpireAt > (cachedWorld.clock (cachedWorld.ticks + 1)).Unix + 10 →
      getTokenAndSignIfNeeded (getTokenAndSignIfNeeded cachedWorld).2 =
        (.ok (cachedWorld.cachedToken, cachedWorld.cachedSign),
          { cachedWorld with ticks := cachedWorld.ticks + 2 })) :=
  getToken_cache_hit cachedWorld (by decide) (by decide) (by decide)

/-- C5 (the code at the failing input): a successful authentication reply
without `params.expire`, received at time 1000, is stored with the expiry 1000
and not 1060; a reply with `expire = 60000` is stored with the expiry 1060. -/
theorem getToken_default_expire :
    (getTokenAndSignIfNeeded (freshWorld 0 (fun _ => .fail []))).1 = .ok ("T".toList, "S".toList) ∧
    (getTokenAndSignIfNeeded (freshWorld 0 (fun _ => .fail []))).2.tokenExpireAt = 1000 ∧
    (getTokenAndSignIfNeeded (freshWorld 0 (fun _ => .fail []))).2.tokenExpireAt ≠ 1000 + 60 ∧
    (getTokenAndSignIfNeeded (freshWorld 60000 (fun _ => .fail []))).2.tokenExpireAt = 1000 + 60 := by
  decide

theorem getToken_frame (w : World) :
    (getTokenAndSignIfNeeded w).2.queryReplies = w.queryReplies ∧
    (getTokenAndSignIfNeeded w).2.queryCalls = w.queryCalls := by
  unfold getTokenAndSignIfNeeded timeNow
  simp only
  split
  · simp
  · split
    · simp
    · split
      · simp
      · split
        · simp
        · split <;> simp

theorem getToken_refetch (w : World) (h : w.cachedToken = []) :
    (getTokenAndSignIfNeeded w).2.trace = w.trace ++ [.authRequest (authTimeStamp w)] ∧
    (getTokenAndSignIfNeeded w).2.authCalls = w.authCalls + 1 := by
  unfold getTokenAndSignIfNeeded timeNow authTimeStamp
  simp only [h]
  simp only [ne_eq, not_true_eq_false, false_and, if_false]
  split
  · simp
  · split
    · simp
    · split
      · simp
      · split <;> simp

theorem queryAttempt_invalid (unitName serviceType : Str) (w : World) (tok sgn : Str)
    (qr : QueryResponse)
    (hget : (getTokenAndSignIfNeeded w).1 = .ok (tok, sgn))
    (hq : w.queryReplies w.queryCalls = .body ⟨.ok qr⟩)
    (hinv : tokenInvalid qr) :
    queryAttempt unitName serviceType w =
      (.again, { (getTokenAndSignIfNeeded w).2 with
          queryCalls := w.queryCalls + 1
          cachedToken := []
          cachedSign := []
          trace := (getTokenAndSignIfNeeded w).2.trace ++
            [.queryRequest unitName serviceType tok sgn, .credCleared] }) := by
  obtain ⟨hf1, hf2⟩ := getToken_frame w
  unfold queryAttempt
  rcases h : getTokenAndSignIfNeeded w with ⟨r, w1⟩
  rw [h] at hget hf1 hf2
  simp only at hget hf1 hf2
  subst hget
  simp only [hf1, hf2, hq, hinv, if_true]
  simp

theorem queryIcpLoop_last (unitName serviceType : Str) (v : World) (hv : v.cachedToken = []) :
    (∃ rest, (queryIcpLoop unitName serviceType 1 v).2.trace =
        v.trace ++ [.authRequest (authTimeStamp v)] ++ rest ∧
      (rest = [] ∨ ∃ tok2 sgn2, rest = [.queryRequest unitName serviceType tok2 sgn2] ∨
        rest = [.queryRequest unitName serviceType tok2 sgn2, .credCleared])) ∧
    (queryIcpLoop unitName serviceType 1 v).2.authCalls = v.authCalls + 1 ∧
    (queryIcpLoop unitName serviceType 1 v).2.queryCalls ≤ v.queryCalls + 1 ∧
    (∀ tok2 sgn2 qr2, (getTokenAndSignIfNeeded v).1 = .ok (tok2, sgn2) →
      v.queryReplies v.queryCalls = .body ⟨.ok qr2⟩ → tokenInvalid qr2 →
      (queryIcpLoop unitName serviceType 1 v).1 = .error .tokenRetries ∧
      (queryIcpLoop unitName serviceType 1 v).2.queryCalls = v.queryCalls + 1 ∧
      (queryIcpLoop unitName serviceType 1 v).2.trace =
        v.trace ++ [.authRequest (authTimeStamp v),
          .queryRequest unitName serviceType tok2 sgn2, .credCleared]) := by
  obtain ⟨hf1, hf2⟩ := getToken_frame v
  obtain ⟨hr1, hr2⟩ := getToken_refetch v hv
  unfold queryIcpLoop queryAttempt
  rcases h : getTokenAndSignIfNeeded v with ⟨r, v2⟩
  rw [h] at hf1 hf2 hr1 hr2
  simp only at hf1 hf2 hr1 hr2
  cases r with
  | error e =>
    simp [hr1, hr2, hf2]
  | ok p =>
    obtain ⟨tok2, sgn2⟩ := p
    simp only [hf1, hf2]
    cases hrep : v.queryReplies v.queryCalls with
    | fail e => simp [hr1, hr2]
    | body b =>
      obtain ⟨um⟩ := b
      cases um with
      | error e => simp [hr1, hr2]
      | ok qr =>
        by_cases hi : tokenInvalid qr
        · simp [hr1, hr2, hi, queryIcpLoop]
        · by_cases hc : qr.Code = 200
          · by_cases hl : qr.List.length = 0
            · simp [hr1, hr2, hi, hc, hl]
            · simp [hr1, hr2, hi, hc, hl]
          · simp [hr1, hr2, hi, hc]

/-- C1: when the first attempt of `queryIcp` obtains a credential and the first
query reply reports an invalid token, the attempt ends by clearing the cached
credential once; the second attempt then sends exactly one authentication
request before its query request, so the trace of the call continues with the
first query request, one clear, one authentication request and at most one
more query request; and when the second reply also reports an invalid token
the call returns the token-retries error after exactly two query requests. -/
theorem queryIcp_token_refresh (unitName serviceType : Str) (w : World) (tok sgn : Str)
    (qr1 : QueryResponse)
    (hget : (getTokenAndSignIfNeeded w).1 = .ok (tok, sgn))
    (hq1 : w.queryReplies w.queryCalls = .body ⟨.ok qr1⟩)
    (hinv1 : tokenInvalid qr1) :
    let w1 := (getTokenAndSignIfNeeded w).2
    let q1 := Event.queryRequest unitName serviceType tok sgn
    let wc := (queryAttempt unitName serviceType w).2
    let out := queryIcp unitName serviceType w
    (wc.cachedToken = [] ∧ wc.cachedSign = [] ∧ wc.trace = w1.trace ++ [q1, .credCleared] ∧
      wc.authCalls = w1.authCalls ∧ wc.queryCalls = w.queryCalls + 1) ∧
    ((getTokenAndSignIfNeeded wc).2.trace = wc.trace ++ [.authRequest (authTimeStamp wc)] ∧
      (getTokenAndSignIfNeeded wc).2.authCalls = wc.authCalls + 1) ∧
    (∃ rest, out.2.trace =
        w1.trace ++ [q1, .credCleared, .authRequest (authTimeStamp wc)] ++ rest ∧
      (rest = [] ∨ ∃ tok2 sgn2, rest = [.queryRequest unitName serviceType tok2 sgn2] ∨
        rest = [.queryRequest unitName serviceType tok2 sgn2, .credCleared])) ∧
    out.2.authCalls = w1.authCalls + 1 ∧
    out.2.queryCalls ≤ w.queryCalls + 2 ∧
    (∀ tok2 sgn2 qr2, (getTokenAndSignIfNeeded wc).1 = .ok (tok2, sgn2) →
      w.queryReplies (w.queryCalls + 1) = .body ⟨.ok qr2⟩ → tokenInvalid qr2 →
      out.1 = .error .tokenRetries ∧ out.2.queryCalls = w.queryCalls + 2 ∧
      out.2.trace = w1.trace ++ [q1, .credCleared, .authRequest (authTimeStamp wc),
        .queryRequest unitName serviceType tok2 sgn2, .credCleared]) := by
  intro w1 q1 wc out
  have hA := queryAttempt_invalid unitName serviceType w tok sgn qr1 hget hq1 hinv1
  have hout : out = queryIcpLoop unitName serviceType 1 wc := by
    show queryIcpLoop unitName serviceType 2 w = _
    rw [queryIcpLoop]
    show (match queryAttempt unitName serviceType w with
      | (.done r, w) => (r, w)
      | (.again, w) => queryIcpLoop unitName serviceType 1 w) = _
    simp only [wc]
    rw [hA]
  have hc1 : wc.cachedToken = [] := by simp only [wc]; rw [hA]
  have hc2 : wc.cachedSign = [] := by simp only [wc]; rw [hA]
  have hc3 : wc.trace = w1.trace ++ [q1, .credCleared] := by simp only [wc]; rw [hA]
  have hc4 : wc.authCalls = w1.authCalls := by simp only [wc]; rw [hA]
  have hc5 : wc.queryCalls = w.queryCalls + 1 := by simp only [wc]; rw [hA]
  have hc6 : wc.queryReplies = w.queryReplies := by
    simp only [wc]; rw [hA]; exact (getToken_frame w).1
  obtain ⟨⟨rest, hr, hrest⟩, ha, hq, hfin⟩ := queryIcpLoop_last unitName serviceType wc hc1
  refine ⟨⟨hc1, hc2, hc3, hc4, hc5⟩, getToken_refetch wc hc1, ⟨rest, ?_, hrest⟩, ?_, ?_, ?_⟩
  · rw [hout, hr, hc3]; simp
  · rw [hout, ha, hc4]
  · rw [hout]; omega
  · intro tok2 sgn2 qr2 h1 h2 h3
    rw [hc6, hc5] at hfin
    obtain ⟨e1, e2, e3⟩ := hfin tok2 sgn2 qr2 h1 h2 h3
    rw [hout]
    refine ⟨e1, by omega, ?_⟩
    rw [e3, hc3]; simp

/-- An instance of C1: with every query answered 401, the call ends after two
query requests with the token-retries error. -/
theorem queryIcp_token_refresh_witness :
    (queryIcp "X".toList "1".toList staleWorld).1 = .error .tokenRetries ∧
    (queryIcp "X".toList "1".toList staleWorld).2.queryCalls = 2 ∧
    (queryIcp "X".toList "1".toList staleWorld).2.trace =
      [.authRequest 1000000,
        .queryRequest "X".toList "1".toList "T".toList "S".toList, .credCleared,
        .authRequest 1000000,
        .queryRequest "X".toList "1".toList "T".toList "S".toList, .credCleared] :=
  (queryIcp_token_refresh "X".toList "1".toList staleWorld "T".toList "S".toList ⟨401, [], []⟩
    (by decide) rfl (by decide)).2.2.2.2.2 "T".toList "S".toList ⟨401, [], []⟩
    (by decide) rfl (by decide)

theorem retryLoop_ok (u s : Str) (res : List Str) (n k : Nat) (a : Attempts) (last : Err)
    (hk : k < n) (hfail : ∀ j < k, ∃ e, a.results (a.calls + j) = .error e)
    (hok : a.results (a.calls + k) = .ok res) :
    retryLoop (Attempts.queryIcp u s) Attempts.sleep n last a =
      (.ok res, ⟨a.results, a.calls + k + 1, a.sleeps ++ List.replicate k 2⟩) := by
  induction k generalizing n a last with
  | zero =>
    obtain ⟨m, rfl⟩ : ∃ m, n = m + 1 := ⟨n - 1, by omega⟩
    simp only [Nat.add_zero] at hok
    simp [retryLoop, Attempts.queryIcp, hok]
  | succ k ih =>
    obtain ⟨m, rfl⟩ : ∃ m, n = m + 1 := ⟨n - 1, by omega⟩
    obtain ⟨e, he⟩ := hfail 0 (by omega)
    simp only [Nat.add_zero] at he
    simp only [retryLoop, Attempts.queryIcp, he]
    rw [ih m (Attempts.sleep 2 { a with calls := a.calls + 1 }) e (by omega)]
    · simp [Attempts.sleep, List.replicate_succ]
      omega
    · intro j hj
      obtain ⟨e', he'⟩ := hfail (j + 1) (by omega)
      exact ⟨e', by simpa [Attempts.sleep, Nat.add_assoc, Nat.add_comm 1 j] using he'⟩
    · simpa [Attempts.sleep, Nat.add_assoc, Nat.add_comm 1 k] using hok

theorem retryLoop_fail (u s : Str) (n : Nat) (a : Attempts) (last : Err)
    (hfail : ∀ j < n + 1, ∃ e, a.results (a.calls + j) = .error e) :
    ∃ e, a.results (a.calls + n) = .error e ∧
      retryLoop (Attempts.queryIcp u s) Attempts.sleep (n + 1) last a =
        (.error (.retriesExhausted e),
          ⟨a.results, a.calls + n + 1, a.sleeps ++ List.replicate (n + 1) 2⟩) := by
  induction n generalizing a last with
  | zero =>
    obtain ⟨e, he⟩ := hfail 0 (by omega)
    refine ⟨e, he, ?_⟩
    simp only [Nat.add_zero] at he
    simp [retryLoop, Attempts.queryIcp, he, Attempts.sleep]
  | succ n ih =>
    obtain ⟨e0, he0⟩ := hfail 0 (by omega)
    simp only [Nat.add_zero] at he0
    obtain ⟨e, he, hrun⟩ := ih (Attempts.sleep 2 { a with calls := a.calls + 1 }) e0 (by
      intro j hj
      obtain ⟨e', he'⟩ := hfail (j + 1) (by omega)
      exact ⟨e', by simpa [Attempts.sleep, Nat.add_assoc, Nat.add_comm 1 j] using he'⟩)
    refine ⟨e, by simpa [Attempts.sleep, Nat.add_assoc, Nat.add_comm 1 n] using he, ?_⟩
    rw [retryLoop]
    simp only [Attempts.queryIcp, he0]
    rw [hrun]
    simp [Attempts.sleep, List.replicate_succ]
    omega

theorem retryLoop_calls (u s : Str) (n : Nat) (a : Attempts) (last : Err) :
    (retryLoop (Attempts.queryIcp u s) Attempts.sleep n last a).2.calls ≤ a.calls + n := by
  induction n generalizing a last with
  | zero => simp [retryLoop]
  | succ n ih =>
    rw [retryLoop]
    simp only [Attempts.queryIcp]
    cases h : a.results a.calls with
    | ok r => simp
    | error e =>
      simp only
      have := ih (Attempts.sleep 2 { a with calls := a.calls + 1 }) e
      simp only [Attempts.sleep] at this ⊢
      omega

/-- C2: over any sequence of per-attempt results, `queryIcpWithRetry` calls
`queryIcp` at most 5 times; when attempt `k < 5` is the first success it returns
that result after `k + 1` calls and `k` two-second sleeps, in particular the
5th result after 4 sleeps; and when the first 5 attempts fail it makes exactly
5 calls and returns the error wrapping the error of the 5th attempt. -/
theorem queryIcpWithRetry_attempts (unitName serviceType : Str)
    (rs : Nat → Except Err (List Str)) :
    (queryIcpWithRetry Attempts.queryIcp Attempts.sleep unitName serviceType ⟨rs, 0, []⟩).2.calls ≤ 5 ∧
    (∀ k res, k < 5 → (∀ j < k, ∃ e, rs j = .error e) → rs k = .ok res →
      queryIcpWithRetry Attempts.queryIcp Attempts.sleep unitName serviceType ⟨rs, 0, []⟩ =
        (.ok res, ⟨rs, k + 1, List.replicate k 2⟩)) ∧
    (∀ res, (∀ j < 4, ∃ e, rs j = .error e) → rs 4 = .ok res →
      queryIcpWithRetry Attempts.queryIcp Attempts.sleep unitName serviceType ⟨rs, 0, []⟩ =
        (.ok res, ⟨rs, 5, [2, 2, 2, 2]⟩)) ∧
    ((∀ j < 5, ∃ e, rs j = .error e) →
      ∃ e, rs 4 = .error e ∧
        queryIcpWithRetry Attempts.queryIcp Attempts.sleep unitName serviceType ⟨rs, 0, []⟩ =
          (.error (.retriesExhausted e), ⟨rs, 5, [2, 2, 2, 2, 2]⟩)) := by
  unfold queryIcpWithRetry
  refine ⟨?_, ?_, ?_, ?_⟩
  · simpa using retryLoop_calls unitName serviceType 5 ⟨rs, 0, []⟩ .nilError
  · intro k res hk hfail hok
    have := retryLoop_ok unitName serviceType res 5 k ⟨rs, 0, []⟩ .nilError hk
      (by simpa using hfail) (by simpa using hok)
    simpa using this
  · intro res hfail hok
    have := retryLoop_ok unitName serviceType res 5 4 ⟨rs, 0, []⟩ .nilError (by omega)
      (by simpa using hfail) (by simpa using hok)
    simpa using this
  · intro hfail
    obtain ⟨e, he, hrun⟩ := retryLoop_fail unitName serviceType 4 ⟨rs, 0, []⟩ .nilError
      (by simpa using hfail)
    exact ⟨e, by simpa using he, by simpa using hrun⟩

/-- The two instances named in C2: four failures then a success, and five
failures. -/
theorem queryIcpWithRetry_attempts_witness :
    queryIcpWithRetry Attempts.queryIcp Attempts.sleep "X".toList "1".toList
        ⟨failFourTimes, 0, []⟩ =
      (.ok ["x.com".toList], ⟨failFourTimes, 5, [2, 2, 2, 2]⟩) ∧
    ∃ e, alwaysFail 4 = .error e ∧
      queryIcpWithRetry Attempts.queryIcp Attempts.sleep "X".toList "1".toList
          ⟨alwaysFail, 0, []⟩ =
        (.error (.retriesExhausted e), ⟨alwaysFail, 5, [2, 2, 2, 2, 2]⟩) :=
  ⟨(queryIcpWithRetry_attempts "X".toList "1".toList failFourTimes).2.2.1 ["x.com".toList]
      (by intro j hj; interval_cases j <;> exact ⟨_, rfl⟩) rfl,
   (queryIcpWithRetry_attempts "X".toList "1".toList alwaysFail).2.2.2
      (fun _ _ => ⟨_, rfl⟩)⟩

theorem mapGet?_mapSet {V : Type} (m : GoMap V) (k k' : Str) (v : V) :
    mapGet? (mapSet m k v) k' = if k = k' then some v else mapGet? m k' := by
  induction m with
  | nil => simp [mapSet, mapGet?]
  | cons e m ih =>
    obtain ⟨k0, v0⟩ := e
    unfold mapSet
    by_cases h0 : k0 = k
    · subst h0
      by_cases h : k0 = k' <;> simp [mapGet?, h]
    · simp only [h0, if_false, mapGet?, ih]
      by_cases h1 : k0 = k'
      · subst h1
        have : ¬ (k = k0) := fun h => h0 h.symm
        simp [this]
      · simp [h1]

theorem mapKeys_mapSet {V : Type} (m : GoMap V) (k : Str) (v : V) :
    mapKeys (mapSet m k v) = if k ∈ mapKeys m then mapKeys m else mapKeys m ++ [k] := by
  induction m with
  | nil => simp [mapSet, mapKeys]
  | cons e m ih =>
    obtain ⟨k0, v0⟩ := e
    unfold mapSet
    by_cases h0 : k0 = k
    · subst h0; simp [mapKeys]
    · have h0' : ¬ (k = k0) := fun h => h0 h.symm
      simp only [h0, if_false, mapKeys, ih, List.mem_cons, h0', false_or]
      split <;> simp

theorem mapGet_mapSet_self {V : Type} (m : GoMap V) (k : Str) (v zero : V) :
    mapGet (mapSet m k v) k zero = v := by
  simp [mapGet, mapGet?_mapSet]

theorem mapGet_mapSet_ne {V : Type} (m : GoMap V) (k k' : Str) (v zero : V) (h : k ≠ k') :
    mapGet (mapSet m k v) k' zero = mapGet m k' zero := by
  simp [mapGet, mapGet?_mapSet, h]

theorem categoryStep_pure (f : Str → Str → Except Err (List Str)) (tg t : Str) (b : Batch) :
    categoryStep (pureQuery f) pureSleep tg (b, ()) t =
      (match f tg (mapGet typeMap t []) with
        | .error _ => { b with failedCompanies := mapSet b.failedCompanies tg true }
        | .ok res =>
          { b with resultTable :=
              mapSet b.resultTable tg (mapSet (mapGet b.resultTable tg []) t res) }, ()) := by
  unfold categoryStep pureQuery pureSleep
  simp only
  cases f tg (mapGet typeMap t []) <;> rfl

theorem categories_fold (f : Str → Str → Except Err (List Str)) (tg : Str) (cats : List Str)
    (b : Batch) (htg : tg ∈ mapKeys b.resultTable) :
    mapKeys (cats.foldl (categoryStep (pureQuery f) pureSleep tg) (b, ())).1.resultTable =
      mapKeys b.resultTable ∧
    (∀ k, k ≠ tg →
      mapGet (cats.foldl (categoryStep (pureQuery f) pureSleep tg) (b, ())).1.resultTable k [] =
        mapGet b.resultTable k []) ∧
    (∀ t o,
      mapGet? (mapGet (cats.foldl (categoryStep (pureQuery f) pureSleep tg)
          (b, ())).1.resultTable tg []) t = some o ↔
        (t ∈ cats ∧ f tg (mapGet typeMap t []) = .ok o) ∨
        ((t ∉ cats ∨ ∃ e, f tg (mapGet typeMap t []) = .error e) ∧
          mapGet? (mapGet b.resultTable tg []) t = some o)) ∧
    (∀ k,
      mapGet (cats.foldl (categoryStep (pureQuery f) pureSleep tg)
          (b, ())).1.failedCompanies k false = true ↔
        mapGet b.failedCompanies k false = true ∨
        (k = tg ∧ ∃ t ∈ cats, ∃ e, f tg (mapGet typeMap t []) = .error e)) := by
  induction cats generalizing b with
  | nil => simp
  | cons c cs ih =>
    simp only [List.foldl_cons]
    rw [categoryStep_pure]
    cases hf : f tg (mapGet typeMap c []) with
    | error e =>
      simp only
      obtain ⟨h1, h2, h3, h4⟩ := ih ⟨b.resultTable, mapSet b.failedCompanies tg true⟩ htg
      refine ⟨h1, h2, ?_, ?_⟩
      · intro t o
        rw [h3 t o]
        simp only [List.mem_cons]
        constructor
        · rintro (⟨h5, h6⟩ | ⟨h5, h6⟩)
          · exact Or.inl ⟨Or.inr h5, h6⟩
          · refine Or.inr ⟨?_, h6⟩
            rcases h5 with h5 | h5
            · by_cases htc : t = c
              · subst htc; exact Or.inr ⟨e, hf⟩
              · exact Or.inl (by simp [htc, h5])
            · exact Or.inr h5
        · rintro (⟨h5 | h5, h6⟩ | ⟨h5, h6⟩)
          · subst h5; rw [hf] at h6; cases h6
          · exact Or.inl ⟨h5, h6⟩
          · refine Or.inr ⟨?_, h6⟩
            rcases h5 with h5 | h5
            · exact Or.inl (fun h => h5 (Or.inr h))
            · exact Or.inr h5
      · intro k
        rw [h4 k]
        simp only [List.mem_cons]
        by_cases hk : k = tg
        · subst hk
          simp only [mapGet_mapSet_self, true_and, true_or, true_iff]
          exact Or.inr ⟨c, Or.inl rfl, e, hf⟩
        · have hk' : tg ≠ k := fun h => hk h.symm
          simp [mapGet_mapSet_ne _ _ _ _ _ hk', hk]
    | ok res =>
      simp only
      have htg' : tg ∈ mapKeys (mapSet b.resultTable tg
          (mapSet (mapGet b.resultTable tg []) c res)) := by
        rw [mapKeys_mapSet]; simp [htg]
      obtain ⟨h1, h2, h3, h4⟩ :=
        ih ⟨mapSet b.resultTable tg (mapSet (mapGet b.resultTable tg []) c res),
          b.failedCompanies⟩ htg'
      refine ⟨?_, ?_, ?_, ?_⟩
      · rw [h1]; simp [mapKeys_mapSet, htg]
      · intro k hk
        rw [h2 k hk]
        exact mapGet_mapSet_ne _ _ _ _ _ (fun h => hk h.symm)
      · intro t o
        rw [h3 t o]
        simp only [mapGet_mapSet_self, mapGet?_mapSet, List.mem_cons]
        by_cases htc : c = t
        · subst htc
          simp only [if_true, hf, true_or, true_and]
          constructor
          · rintro (⟨_, h6⟩ | ⟨_, h6⟩)
            · exact Or.inl h6
            · simp at h6; subst h6; exact Or.inl rfl
          · rintro (h6 | ⟨h5, _⟩)
            · simp at h6; subst h6
              by_cases hm : c ∈ cs
              · exact Or.inl ⟨hm, rfl⟩
              · exact Or.inr ⟨Or.inl hm, rfl⟩
            · rcases h5 with h5 | ⟨e, h5⟩
              · simp at h5
              · cases h5
        · have htc' : ¬ (t = c) := fun h => htc h.symm
          simp [htc, htc']
      · intro k
        rw [h4 k]
        simp only [List.mem_cons]
        constructor
        · rintro (h5 | ⟨h5, t, h6, h7⟩)
          · exact Or.inl h5
          · exact Or.inr ⟨h5, t, Or.inr h6, h7⟩
        · rintro (h5 | ⟨h5, t, h6 | h6, e, h7⟩)
          · exact Or.inl h5
          · subst h6; rw [hf] at h7; cases h7
          · exact Or.inr ⟨h5, t, h6, e, h7⟩

theorem targetStep_inv (f : Str → Str → Except Err (List Str)) (cats P : List Str) (b : Batch)
    (tg : Str) (hP : tg ∉ P) (hinv : BatchInv f cats P b) :
    BatchInv f cats (P ++ [tg]) (targetStep (pureQuery f) pureSleep cats (b, ()) tg).1 := by
  obtain ⟨i1, i2, i3⟩ := hinv
  have hkeys : mapKeys (mapSet b.resultTable tg ([] : GoMap (List Str))) = P ++ [tg] := by
    rw [mapKeys_mapSet, i1]; simp [hP]
  obtain ⟨h1, h2, h3, h4⟩ := categories_fold f tg cats
    ⟨mapSet b.resultTable tg [], b.failedCompanies⟩ (by rw [hkeys]; simp)
  unfold targetStep
  refine ⟨by rw [h1, hkeys], ?_, ?_⟩
  · intro tg' htg' t o
    by_cases he : tg' = tg
    · subst he
      rw [h3 t o]
      simp [mapGet_mapSet_self, mapGet?]
    · have hmem : tg' ∈ P := by
        rcases List.mem_append.1 htg' with h | h
        · exact h
        · exact absurd (by simpa using h) he
      rw [h2 tg' he]
      simp only
      rw [mapGet_mapSet_ne _ _ _ _ _ (fun h => he h.symm)]
      exact i2 tg' hmem t o
  · intro k
    rw [h4 k]
    simp only
    rw [i3 k]
    simp only [List.mem_append, List.mem_singleton]
    constructor
    · rintro (⟨h5, h6⟩ | ⟨h5, h6⟩)
      · exact ⟨Or.inl h5, h6⟩
      · subst h5; exact ⟨Or.inr rfl, h6⟩
    · rintro ⟨h5 | h5, h6⟩
      · exact Or.inl ⟨h5, h6⟩
      · subst h5; exact Or.inr ⟨rfl, h6⟩

theorem batchLoop_inv (f : Str → Str → Except Err (List Str)) (cats R P : List Str) (b : Batch)
    (hnd : (P ++ R).Nodup) (hinv : BatchInv f cats P b) :
    BatchInv f cats (P ++ R)
      (R.foldl (targetStep (pureQuery f) pureSleep cats) (b, ())).1 := by
  induction R generalizing P b with
  | nil => simpa using hinv
  | cons tg R ih =>
    have hP : tg ∉ P := by
      intro h
      have := List.nodup_append.1 hnd
      exact this.2.2 h (by simp)
    have hstep := targetStep_inv f cats P b tg hP hinv
    have := ih (P ++ [tg]) (targetStep (pureQuery f) pureSleep cats (b, ()) tg).1
      (by simpa using hnd) hstep
    simpa using this

/-- C3: with `queryIcpWithRetry` answering as the function `f`, for a target
list without duplicates the keys of `resultTable` after the query loop are the
target list, `resultTable[target][t]` holds an outcome exactly for the requested
categories whose query succeeded (and holds that outcome), and
`failedCompanies` is exactly the set of targets with a failed category. -/
theorem batchLoop_table (f : Str → Str → Except Err (List Str)) (targets cats : List Str)
    (hnd : targets.Nodup) :
    mapKeys (batchLoop (pureQuery f) pureSleep targets cats ()).1.resultTable = targets ∧
    (∀ target ∈ targets, ∀ t o,
      mapGet? (mapGet (batchLoop (pureQuery f) pureSleep targets cats ()).1.resultTable
          target []) t = some o ↔
        t ∈ cats ∧ f target (mapGet typeMap t []) = .ok o) ∧
    (∀ k, mapGet (batchLoop (pureQuery f) pureSleep targets cats ()).1.failedCompanies
          k false = true ↔
        k ∈ targets ∧ ∃ t ∈ cats, ∃ e, f k (mapGet typeMap t []) = .error e) := by
  have := batchLoop_inv f cats targets [] ⟨[], []⟩ (by simpa using hnd)
    ⟨rfl, by simp, by simp [mapGet, mapGet?]⟩
  simpa [BatchInv, batchLoop] using this

/-- The instance named in C3: the targets `X`, `Y` with the category website,
`X` found with `x.com` and `Y` failing. -/
theorem batchLoop_table_witness :
    (batchLoop (pureQuery exampleAnswers) pureSleep ["X".toList, "Y".toList]
        ["1".toList] ()).1 =
      ⟨[("X".toList, [("1".toList, ["x.com".toList])]), ("Y".toList, [])],
        [("Y".toList, true)]⟩ ∧
    mapKeys (batchLoop (pureQuery exampleAnswers) pureSleep ["X".toList, "Y".toList]
        ["1".toList] ()).1.resultTable = ["X".toList, "Y".toList] :=
  ⟨by decide,
   (batchLoop_table exampleAnswers ["X".toList, "Y".toList] ["1".toList] (by decide)).1⟩

theorem loopTrace_append (answers : Nat → Str → Str → Except Err (List Str)) (n : Nat)
    (ps qs : List (Str × Str)) :
    loopTrace answers n (ps ++ qs) =
      loopTrace answers n ps ++ loopTrace answers (n + ps.length) qs := by
  induction ps generalizing n with
  | nil => simp [loopTrace]
  | cons p ps ih =>
    obtain ⟨u, s⟩ := p
    simp [loopTrace, ih, Nat.add_assoc, Nat.add_comm 1]

theorem categoryStep_trace (tg c : Str) (b : Batch) (s : Sim) :
    (categoryStep Sim.query Sim.sleep tg (b, s) c).2 =
      ⟨s.answers, s.calls + 1,
        s.trace ++ loopTrace s.answers s.calls [(tg, mapGet typeMap c [])]⟩ := by
  unfold categoryStep
  simp only [Sim.query]
  cases h : s.answers s.calls tg (mapGet typeMap c []) with
  | error e => simp [loopTrace, h, Except.toBool]
  | ok r => simp [loopTrace, h, Except.toBool, Sim.sleep]

theorem categories_trace (tg : Str) (cats : List Str) (b : Batch) (s : Sim) :
    (cats.foldl (categoryStep Sim.query Sim.sleep tg) (b, s)).2 =
      ⟨s.answers, s.calls + cats.length,
        s.trace ++ loopTrace s.answers s.calls (cats.map (fun t => (tg, mapGet typeMap t [])))⟩ := by
  induction cats generalizing b s with
  | nil => simp [loopTrace]
  | cons c cs ih =>
    simp only [List.foldl_cons, List.map_cons, List.length_cons]
    rw [show categoryStep Sim.query Sim.sleep tg (b, s) c =
      ((categoryStep Sim.query Sim.sleep tg (b, s) c).1,
        (categoryStep Sim.query Sim.sleep tg (b, s) c).2) from rfl]
    rw [ih, categoryStep_trace]
    simp only [List.append_assoc, Nat.add_assoc, Nat.add_comm 1]
    have := loopTrace_append s.answers s.calls [(tg, mapGet typeMap c [])]
      (cs.map (fun t => (tg, mapGet typeMap t [])))
    simp only [List.singleton_append, List.length_singleton] at this
    rw [this]

theorem queryPairs_length (targets cats : List Str) :
    (queryPairs targets cats).length = targets.length * cats.length := by
  unfold queryPairs
  induction targets with
  | nil => simp
  | cons tg tgs ih =>
    rw [List.flatMap_cons, List.length_append, ih]
    simp [Nat.succ_mul, Nat.add_comm]

theorem targets_trace (targets cats : List Str) (b : Batch) (s : Sim) :
    (targets.foldl (targetStep Sim.query Sim.sleep cats) (b, s)).2 =
      ⟨s.answers, s.calls + (queryPairs targets cats).length,
        s.trace ++ loopTrace s.answers s.calls (queryPairs targets cats)⟩ := by
  induction targets generalizing b s with
  | nil => simp [queryPairs, loopTrace]
  | cons tg tgs ih =>
    simp only [List.foldl_cons]
    rw [show targetStep Sim.query Sim.sleep cats (b, s) tg =
      ((targetStep Sim.query Sim.sleep cats (b, s) tg).1,
        (targetStep Sim.query Sim.sleep cats (b, s) tg).2) from rfl]
    rw [ih]
    have h2 : (targetStep Sim.query Sim.sleep cats (b, s) tg).2 =
        ⟨s.answers, s.calls + cats.length,
          s.trace ++ loopTrace s.answers s.calls
            (cats.map (fun t => (tg, mapGet typeMap t [])))⟩ := by
      unfold targetStep
      exact categories_trace tg cats _ s
    rw [h2]
    simp only [queryPairs, List.flatMap_cons, List.length_append, List.length_map,
      loopTrace_append, List.append_assoc, Nat.add_assoc]

theorem loopTrace_counts (answers : Nat → Str → Str → Except Err (List Str)) (n : Nat)
    (ps : List (Str × Str)) :
    (loopTrace answers n ps).count (.sleep 2) = (outcomes answers n ps).count true ∧
    (loopTrace answers n ps).countP BatchEvent.isQuery = ps.length := by
  induction ps generalizing n with
  | nil => simp [loopTrace, outcomes]
  | cons p ps ih =>
    obtain ⟨u, s⟩ := p
    obtain ⟨h1, h2⟩ := ih (n + 1)
    cases h : (answers n u s).toBool <;>
      simp [loopTrace, outcomes, h, h1, h2, List.count_cons, List.countP_cons,
        BatchEvent.isQuery]

/-- C10 (amended): the trace of the query loop is the sequence of the calls
`queryIcpWithRetry(target, typeMap[t])`, one per target and category, each one
followed by a 2-second sleep exactly when it succeeded; so the number of
2-second sleeps is the number of successful calls. -/
theorem batchLoop_sleeps (answers : Nat → Str → Str → Except Err (List Str))
    (targets cats : List Str) :
    (batchLoop Sim.query Sim.sleep targets cats ⟨answers, 0, []⟩).2.trace =
      loopTrace answers 0 (queryPairs targets cats) ∧
    (batchLoop Sim.query Sim.sleep targets cats ⟨answers, 0, []⟩).2.trace.countP
      BatchEvent.isQuery = targets.length * cats.length ∧
    (batchLoop Sim.query Sim.sleep targets cats ⟨answers, 0, []⟩).2.trace.count (.sleep 2) =
      (outcomes answers 0 (queryPairs targets cats)).count true := by
  unfold batchLoop
  rw [targets_trace]
  simp only [List.nil_append]
  obtain ⟨h1, h2⟩ := loopTrace_counts answers 0 (queryPairs targets cats)
  exact ⟨trivial, by rw [h2, queryPairs_length], h1⟩

/-- C10 (counterexample): for the single target `Y` and the category website,
with the query exhausting its retries, the trace is the one query with no
sleep after it. -/
theorem batchLoop_no_sleep_after_failure :
    (batchLoop Sim.query Sim.sleep ["Y".toList] ["1".toList]
      ⟨fun _ _ _ => .error (.retriesExhausted .tokenRetries), 0, []⟩).2.trace =
      [.query "Y".toList "1".toList] ∧
    (batchLoop Sim.query Sim.sleep ["Y".toList] ["1".toList]
      ⟨fun _ _ _ => .error (.retriesExhausted .tokenRetries), 0, []⟩).2.trace.countP
        (fun e => decide (e = .sleep 2)) ≠
    (batchLoop Sim.query Sim.sleep ["Y".toList] ["1".toList]
      ⟨fun _ _ _ => .error (.retriesExhausted .tokenRetries), 0, []⟩).2.trace.countP
        BatchEvent.isQuery := by
  decide

theorem stringsJoin_eq_nil (xs : List Str) (sep : Str) (hsep : sep ≠ []) :
    stringsJoin xs sep = [] ↔ xs = [] ∨ xs = [[]] := by
  match xs with
  | [] => simp [stringsJoin]
  | [a] => simp [stringsJoin]
  | a :: b :: rest => simp [stringsJoin, hsep]

theorem allEmpty_iff (b c d : Str) :
    allEmpty [b, c, d] = true ↔ b = [] ∧ c = [] ∧ d = [] := by
  unfold allEmpty
  by_cases hb : b = [] <;> by_cases hc : c = [] <;> by_cases hd : d = [] <;>
    simp [hb, hc, hd]

theorem mem_exportRows (resultTable : GoMap (GoMap (List Str))) (failedCompanies : GoMap Bool)
    (n : Nat) (ks : List Str) (r : Row) :
    r ∈ exportRows resultTable failedCompanies n ks ↔
      ∃ i, ∃ h : i < ks.length, r = exportRow resultTable failedCompanies (n + i) (ks.get ⟨i, h⟩) := by
  induction ks generalizing n with
  | nil => simp [exportRows]
  | cons k ks ih =>
    simp only [exportRows, List.mem_cons, ih]
    constructor
    · rintro (h | ⟨i, hi, h⟩)
      · exact ⟨0, by simp, by simpa using h⟩
      · exact ⟨i + 1, by simp; omega, by
          simp only [List.get_eq_getElem, List.getElem_cons_succ]
          rw [h]
          simp only [List.get_eq_getElem]
          congr 1
          omega⟩
    · rintro ⟨i, hi, h⟩
      cases i with
      | zero => exact Or.inl (by simpa using h)
      | succ j =>
        refine Or.inr ⟨j, by simpa using hi, ?_⟩
        rw [h]
        simp only [List.get_eq_getElem, List.getElem_cons_succ]
        congr 1
        omega

theorem mem_sortStrings (ks : List Str) (k : Str) : k ∈ sortStrings ks ↔ k ∈ ks := by
  unfold sortStrings
  exact (List.perm_insertionSort _ ks).mem_iff

/-- C8 (amended): every key of the result table gets a row, and in the row of
the target `k` the columns B, C, D hold the comma-joined outcomes of the three
categories; column E holds `k` if and only if B, C and D are all blank and `k`
is not in the failure set, and is not written otherwise; column F holds `k` if
and only if `k` is in the failure set, and is not written otherwise.  A cell is
blank exactly when the outcome is the empty sequence or the single empty
identifier. -/
theorem export_columns (resultTable : GoMap (GoMap (List Str))) (failedCompanies : GoMap Bool) :
    (∀ k ∈ mapKeys resultTable, ∃ r ∈ exportSheet resultTable failedCompanies, r.A = some k) ∧
    (∀ r ∈ exportSheet resultTable failedCompanies, ∃ k ∈ mapKeys resultTable,
      r.A = some k ∧
      r.B = some (cellValue resultTable k "1".toList) ∧
      r.C = some (cellValue resultTable k "2".toList) ∧
      r.D = some (cellValue resultTable k "3".toList) ∧
      (r.E = some k ∨ r.E = none) ∧
      (r.E = some k ↔
        (r.B = some [] ∧ r.C = some [] ∧ r.D = some []) ∧
          mapGet failedCompanies k false = false) ∧
      (r.F = some k ∨ r.F = none) ∧
      (r.F = some k ↔ mapGet failedCompanies k false = true)) ∧
    (∀ k t, cellValue resultTable k t = [] ↔
      mapGet (mapGet resultTable k []) t [] = [] ∨
      mapGet (mapGet resultTable k []) t [] = [[]]) := by
  refine ⟨?_, ?_, ?_⟩
  · intro k hk
    have hk2 : k ∈ sortStrings (mapKeys resultTable) := (mem_sortStrings _ k).2 hk
    obtain ⟨i, hi⟩ := List.mem_iff_get.1 hk2
    refine ⟨exportRow resultTable failedCompanies (2 + i) k, ?_, rfl⟩
    unfold exportSheet
    rw [mem_exportRows]
    exact ⟨i.1, i.2, by rw [← hi]⟩
  · intro r hr
    unfold exportSheet at hr
    rw [mem_exportRows] at hr
    obtain ⟨i, hi, rfl⟩ := hr
    refine ⟨_, (mem_sortStrings _ _).1 (List.get_mem _ i hi), ?_⟩
    refine ⟨rfl, rfl, rfl, rfl, ?_, ?_, ?_, ?_⟩
    · simp only [exportRow]; split <;> simp
    · simp only [exportRow, allEmpty_iff]
      cases mapGet failedCompanies _ false <;> simp
    · simp only [exportRow]; split <;> simp
    · simp only [exportRow]
      cases mapGet failedCompanies _ false <;> simp
  · intro k t
    unfold cellValue
    exact stringsJoin_eq_nil _ _ (by decide)

/-- C8 (counterexample): a target whose website outcome is the single empty
identifier, and which is not in the failure set, gets its name in column E
although that outcome is not the empty sequence. -/
theorem export_blank_identifier :
    exportSheet blankTable [] =
      [⟨2, some "X".toList, some [], some [], some [], some "X".toList, none⟩] ∧
    ¬ (∀ r ∈ exportSheet blankTable [],
        (r.E = some "X".toList ↔
          (∀ t ∈ ["1".toList, "2".toList, "3".toList],
            mapGet (mapGet blankTable "X".toList []) t [] = []) ∧
          mapGet ([] : GoMap Bool) "X".toList false = false)) := by
  decide

end IcpSearch
